import Mathlib

/-
  Verification of the rimd Standard MIDI File codec.

  This file gives a shallow embedding of the core codec of the rimd
  repository (src/reader.rs, src/writer.rs, src/midi.rs, src/meta.rs,
  src/util.rs, src/lib.rs) and proves properties of it.

  Modelling conventions
  - A byte source (the Rust `&mut Read`) is a `List Nat` of byte values;
    every reading function returns its result together with the
    remaining stream, so consumption is observable.
  - Machine integers are `Nat` with explicit `% 2 ^ w` where wrap-around
    can occur (the u64 accumulator shift in `read_vtime`, the u32 track
    length counter).  Bitwise operations of the source are kept as
    bitwise operations on `Nat` (`&&&`, `|||`) except where a mask on a
    byte-sized operand is literally a remainder (noted locally).
  - Functions of the source that can fail to return (the SysEx scan and
    `read_amount`, which both spin forever when the source is exhausted,
    because `Read::read` keeps returning `Ok(0)`) are wrapped in
    `Option`: `none` models a non-returning execution.
-/

namespace Rimd

/-- The MIDI status kinds, discriminants as in src/midi.rs (enum Status). -/
inductive Status where
  | NoteOff
  | NoteOn
  | PolyphonicAftertouch
  | ControlChange
  | ProgramChange
  | ChannelAftertouch
  | PitchBend
  | SysExStart
  | MIDITimeCodeQtrFrame
  | SongPositionPointer
  | SongSelect
  | TuneRequest
  | SysExEnd
  | TimingClock
  | Start
  | Continue
  | Stop
  | ActiveSensing
  | SystemReset
  deriving DecidableEq, Repr

/-- Discriminant value of a Status (the `Status = 0x80, ...` values in src/midi.rs). -/
def Status.toU8 : Status → Nat
  | .NoteOff => 0x80
  | .NoteOn => 0x90
  | .PolyphonicAftertouch => 0xA0
  | .ControlChange => 0xB0
  | .ProgramChange => 0xC0
  | .ChannelAftertouch => 0xD0
  | .PitchBend => 0xE0
  | .SysExStart => 0xF0
  | .MIDITimeCodeQtrFrame => 0xF1
  | .SongPositionPointer => 0xF2
  | .SongSelect => 0xF3
  | .TuneRequest => 0xF6
  | .SysExEnd => 0xF7
  | .TimingClock => 0xF8
  | .Start => 0xFA
  | .Continue => 0xFB
  | .Stop => 0xFC
  | .ActiveSensing => 0xFE
  | .SystemReset => 0xFF

/-- The derived `FromPrimitive::from_u8` for Status: exact match on a discriminant. -/
def Status.from_u8 (n : Nat) : Option Status :=
  if n = 0x80 then some .NoteOff
  else if n = 0x90 then some .NoteOn
  else if n = 0xA0 then some .PolyphonicAftertouch
  else if n = 0xB0 then some .ControlChange
  else if n = 0xC0 then some .ProgramChange
  else if n = 0xD0 then some .ChannelAftertouch
  else if n = 0xE0 then some .PitchBend
  else if n = 0xF0 then some .SysExStart
  else if n = 0xF1 then some .MIDITimeCodeQtrFrame
  else if n = 0xF2 then some .SongPositionPointer
  else if n = 0xF3 then some .SongSelect
  else if n = 0xF6 then some .TuneRequest
  else if n = 0xF7 then some .SysExEnd
  else if n = 0xF8 then some .TimingClock
  else if n = 0xFA then some .Start
  else if n = 0xFB then some .Continue
  else if n = 0xFC then some .Stop
  else if n = 0xFE then some .ActiveSensing
  else if n = 0xFF then some .SystemReset
  else none

/-- Meta commands, as in src/meta.rs (enum MetaCommand). -/
inductive MetaCommand where
  | SequenceNumber
  | TextEvent
  | CopyrightNotice
  | SequenceOrTrackName
  | InstrumentName
  | LyricText
  | MarkerText
  | CuePoint
  | MIDIChannelPrefixAssignment
  | MIDIPortPrefixAssignment
  | EndOfTrack
  | TempoSetting
  | SMPTEOffset
  | TimeSignature
  | KeySignature
  | SequencerSpecificEvent
  | Unknown
  deriving DecidableEq, Repr

/-- Discriminant value of a MetaCommand.  `Unknown` carries no explicit
discriminant in the source, so Rust assigns it the next value after
`SequencerSpecificEvent = 0x7F`, namely 0x80. -/
def MetaCommand.toU8 : MetaCommand → Nat
  | .SequenceNumber => 0x00
  | .TextEvent => 0x01
  | .CopyrightNotice => 0x02
  | .SequenceOrTrackName => 0x03
  | .InstrumentName => 0x04
  | .LyricText => 0x05
  | .MarkerText => 0x06
  | .CuePoint => 0x07
  | .MIDIChannelPrefixAssignment => 0x20
  | .MIDIPortPrefixAssignment => 0x21
  | .EndOfTrack => 0x2F
  | .TempoSetting => 0x51
  | .SMPTEOffset => 0x54
  | .TimeSignature => 0x58
  | .KeySignature => 0x59
  | .SequencerSpecificEvent => 0x7F
  | .Unknown => 0x80

/-- The derived `FromPrimitive::from_u8` for MetaCommand (exact discriminant match;
note that the implicit discriminant 0x80 of `Unknown` is also matched by the derive). -/
def MetaCommand.from_u8 (n : Nat) : Option MetaCommand :=
  if n = 0x00 then some .SequenceNumber
  else if n = 0x01 then some .TextEvent
  else if n = 0x02 then some .CopyrightNotice
  else if n = 0x03 then some .SequenceOrTrackName
  else if n = 0x04 then some .InstrumentName
  else if n = 0x05 then some .LyricText
  else if n = 0x06 then some .MarkerText
  else if n = 0x07 then some .CuePoint
  else if n = 0x20 then some .MIDIChannelPrefixAssignment
  else if n = 0x21 then some .MIDIPortPrefixAssignment
  else if n = 0x2F then some .EndOfTrack
  else if n = 0x51 then some .TempoSetting
  else if n = 0x54 then some .SMPTEOffset
  else if n = 0x58 then some .TimeSignature
  else if n = 0x59 then some .KeySignature
  else if n = 0x7F then some .SequencerSpecificEvent
  else if n = 0x80 then some .Unknown
  else none

/-- A midi message: a raw byte buffer (src/midi.rs, struct MidiMessage). -/
structure MidiMessage where
  data : List Nat
  deriving DecidableEq, Repr

/-- A meta event: command, declared length and payload (src/meta.rs, struct MetaEvent). -/
structure MetaEvent where
  command : MetaCommand
  length : Nat
  data : List Nat
  deriving DecidableEq, Repr

/-- An event is a midi message or a meta event (src/lib.rs, enum Event). -/
inductive Event where
  | Midi : MidiMessage → Event
  | Meta : MetaEvent → Event
  deriving DecidableEq, Repr

/-- A delta time paired with an event (src/lib.rs, struct TrackEvent). -/
structure TrackEvent where
  vtime : Nat
  event : Event
  deriving DecidableEq, Repr

/-- A track (src/lib.rs, struct Track). -/
structure Track where
  copyright : Option String
  name : Option String
  events : List TrackEvent
  deriving DecidableEq, Repr

/-- Error type of the midi message parser (src/midi.rs, enum MidiError).
The io-wrapping variant `Error` carries the io error message. -/
inductive MidiError where
  | InvalidStatus : Nat → MidiError
  | OtherErr : String → MidiError
  | Error : String → MidiError
  deriving DecidableEq, Repr

/-- Error type of the meta event parser (src/meta.rs, enum MetaError). -/
inductive MetaError where
  | InvalidCommand : Nat → MetaError
  | OtherErr : String → MetaError
  | Error : String → MetaError
  deriving DecidableEq, Repr

/-- Error type of the SMF parser (src/lib.rs, enum SMFError); the `MidiError`,
`MetaError` and `Error` variants mirror the `From` conversions. -/
inductive SMFError where
  | InvalidSMFFile : String → SMFError
  | MidiError : MidiError → SMFError
  | MetaError : MetaError → SMFError
  | Error : String → SMFError
  deriving DecidableEq, Repr

/-- util.rs `read_byte`: reads one byte.  On an exhausted source the underlying
`read` returns `Ok(0)` without touching the buffer, so the function returns the
byte 0 rather than an error (the zero-bytes-read case is not checked). -/
def read_byte (s : List Nat) : Nat × List Nat :=
  match s with
  | [] => (0, [])
  | b :: rest => (b, rest)

/-- util.rs `fill_buf`: read exactly `n` bytes, or fail with an io error
("file ends before it should") if the source is exhausted first. -/
def fill_buf (s : List Nat) (n : Nat) : (Except SMFError (List Nat)) × List Nat :=
  if n ≤ s.length then (.ok (s.take n), s.drop n)
  else (.error (.Error "file ends before it should"), s)

/-- util.rs `read_amount`: read exactly `amt` bytes into a fresh buffer.  When the
source is exhausted first, the `Ok(0)` arm of the loop records an error but does
not break, so the loop spins forever; `none` models that non-returning execution. -/
def read_amount (s : List Nat) (amt : Nat) : Option (List Nat × List Nat) :=
  if amt ≤ s.length then some (s.take amt, s.drop amt) else none

/-- util.rs `latin1_decode`: the ISO-8859-1 decode maps every byte to the unicode
code point of the same value and cannot fail on byte input. -/
def latin1_decode (s : List Nat) : String :=
  String.mk (s.map Char.ofNat)

/-- writer.rs `SMFWriter::vtime_to_vec`, inner loop.  The first argument is fuel;
the loop runs at most until `cur` reaches 0 by repeated division, so any fuel
greater than `cur` is enough and the 0-fuel case is unreachable from
`vtime_to_vec` (see `vtime_to_vec_go_congr`).  `cur &&& 127` is `cur & val_mask`
and `||| 128` is `|= cont_mask`; `cur / 128` is `cur >> 7`. -/
def vtime_to_vec_go : Nat → Nat → Bool → List Nat
  | 0, _, _ => []
  | fuel + 1, cur, continuation =>
    let to_write := (cur &&& 127) ||| (if continuation then 128 else 0)
    if cur / 128 = 0 then [to_write]
    else to_write :: vtime_to_vec_go fuel (cur / 128) true

/-- writer.rs `SMFWriter::vtime_to_vec`: minimal big-endian VLQ encoding; the
Rust code pushes least-significant group first and reverses at the end. -/
def vtime_to_vec (val : Nat) : List Nat :=
  (vtime_to_vec_go (val + 1) val false).reverse

/-- reader.rs `SMFReader::read_vtime`, loop body.  The fuel argument counts the
remaining allowed iterations: the source increments `i` and fails when `i > 9`,
so starting fuel is 9.  `next &&& 127` is `next & val_mask`; the continuation
test is `next & cont_mask == 0`; the accumulator is a u64, so the shift by 7 is
taken mod 2 ^ 64. -/
def read_vtime_go : List Nat → Nat → Nat → (Except SMFError Nat) × List Nat
  | s, _, 0 => (.error (.InvalidSMFFile "Variable length value too long"), s)
  | s, res, fuel + 1 =>
    let p := read_byte s
    let res' := res ||| (p.1 &&& 127)
    if p.1 &&& 128 = 0 then (.ok res', p.2)
    else read_vtime_go p.2 ((res' * 128) % 2 ^ 64) fuel

/-- reader.rs `SMFReader::read_vtime`: decode one VLQ value, reading at most 9
bytes. -/
def read_vtime (s : List Nat) : (Except SMFError Nat) × List Nat :=
  read_vtime_go s 0 9

/-- midi.rs `MidiMessage::data_bytes`: number of data bytes for a status byte.
The status is masked with `STATUS_MASK = 0xF0` before the `from_u8` lookup, so
only the eight channel-voice discriminants and `0xF0` can ever be produced. -/
def data_bytes (status : Nat) : Int :=
  match Status.from_u8 (status &&& 0xF0) with
  | some stat =>
    match stat with
    | .NoteOff | .NoteOn | .PolyphonicAftertouch | .ControlChange
    | .PitchBend | .SongPositionPointer => 2
    | .SysExStart => -2
    | .ProgramChange | .ChannelAftertouch | .MIDITimeCodeQtrFrame
    | .SongSelect => 1
    | .TuneRequest | .SysExEnd | .TimingClock | .Start | .Continue
    | .Stop | .ActiveSensing | .SystemReset => 0
  | none => -3

/-- The SysEx scan of midi.rs `MidiMessage::next_message_given_status` (the
`-2` arm): read and keep bytes until and including a 0xF7 byte.  If the source
is exhausted before a 0xF7 appears, `read_byte` yields 0 forever and the Rust
loop never terminates; `none` models that. -/
def read_sysex : List Nat → Option (List Nat × List Nat)
  | [] => none
  | b :: rest =>
    if b = 0xF7 then some ([b], rest)
    else match read_sysex rest with
      | none => none
      | some (acc, r) => some (b :: acc, r)

/-- midi.rs `MidiMessage::next_message_given_status`: the status byte has been
read already; read the data bytes dictated by `data_bytes`. -/
def next_message_given_status (stat : Nat) (s : List Nat) :
    Option ((Except MidiError MidiMessage) × List Nat) :=
  let db := data_bytes stat
  if db = 0 then some (.ok ⟨[stat]⟩, s)
  else if db = 1 then
    let p := read_byte s
    some (.ok ⟨[stat, p.1]⟩, p.2)
  else if db = 2 then
    let p := read_byte s
    let q := read_byte p.2
    some (.ok ⟨[stat, p.1, q.1]⟩, q.2)
  else if db = -1 then some (.error (.OtherErr "Dont handle variable sized yet"), s)
  else if db = -2 then
    match read_sysex s with
    | none => none
    | some (bytes, s') => some (.ok ⟨stat :: bytes⟩, s')
  else some (.error (.InvalidStatus stat), s)

/-- midi.rs `MidiMessage::next_message_running_status`: the running status is
`stat` and `databyte` was read in place of a status byte.  The 0-data-byte arm
is a panic in the source (modelled `none`, a non-returning execution); it is
unreachable because `data_bytes` never returns 0 after the 0xF0 mask. -/
def next_message_running_status (stat databyte : Nat) (s : List Nat) :
    Option ((Except MidiError MidiMessage) × List Nat) :=
  let db := data_bytes stat
  if db = 0 then none
  else if db = 1 then some (.ok ⟨[stat, databyte]⟩, s)
  else if db = 2 then
    let p := read_byte s
    some (.ok ⟨[stat, databyte, p.1]⟩, p.2)
  else if db = -1 then some (.error (.OtherErr "Dont handle variable sized yet"), s)
  else if db = -2 then
    some (.error (.OtherErr "Running status not permitted with meta and sysex event"), s)
  else some (.error (.InvalidStatus stat), s)

/-- meta.rs `MetaEvent::next_event`: read a command byte (unknown values map to
`MetaCommand.Unknown`), a VLQ length, then exactly that many payload bytes. -/
def MetaEvent.next_event (s : List Nat) :
    Option ((Except MetaError MetaEvent) × List Nat) :=
  let p := read_byte s
  let command :=
    match MetaCommand.from_u8 p.1 with
    | some c => c
    | none => MetaCommand.Unknown
  match read_vtime p.2 with
  | (.error _, s2) => some (.error (.OtherErr "Couldnt read time for meta command"), s2)
  | (.ok len, s2) =>
    match read_amount s2 len with
    | none => none
    | some (data, s3) => some (.ok ⟨command, len, data⟩, s3)

/-- lib.rs `Event::len`: the number of bytes this event uses on the wire. -/
def Event.len : Event → Nat
  | .Midi m => m.data.length
  | .Meta me => (vtime_to_vec me.length).length + me.data.length + 2

/-- lib.rs `TrackEvent::len`: wire bytes of the event including its delta time. -/
def TrackEvent.len (e : TrackEvent) : Nat :=
  (vtime_to_vec e.vtime).length + e.event.len

/-- reader.rs `SMFReader::next_event`: read a delta time and one event.  The
returned Bool is the `was_running` flag of the source (set when the byte in
status position has a clear high bit). -/
def next_event (s : List Nat) (laststat : Nat) :
    Option ((Except SMFError TrackEvent) × List Nat × Bool) :=
  match read_vtime s with
  | (.error e, s1) => some (.error e, s1, false)
  | (.ok time, s1) =>
    let p := read_byte s1
    let stat := p.1
    let was_running : Bool := stat &&& 128 == 0
    if stat = 0xFF then
      match MetaEvent.next_event p.2 with
      | none => none
      | some (.error e, s3) => some (.error (.MetaError e), s3, was_running)
      | some (.ok me, s3) => some (.ok ⟨time, .Meta me⟩, s3, was_running)
    else
      match (if was_running then next_message_running_status laststat stat p.2
             else next_message_given_status stat p.2) with
      | none => none
      | some (.error e, s3) => some (.error (.MidiError e), s3, was_running)
      | some (.ok m, s3) => some (.ok ⟨time, .Midi m⟩, s3, was_running)

/-- The `last` computation of reader.rs `SMFReader::parse_track`: scan the
already-parsed events from the end and take byte 0 of the most recent midi
message (0 when there is none).  Parsed midi messages always have at least one
byte, so the `headD` default is never used. -/
def last_midi_status_go : List TrackEvent → Nat
  | [] => 0
  | e :: rest =>
    match e.event with
    | .Midi m => m.data.headD 0
    | .Meta _ => last_midi_status_go rest

def last_midi_status (res : List TrackEvent) : Nat :=
  last_midi_status_go res.reverse

/-- The event loop of reader.rs `SMFReader::parse_track`.  The first argument is
fuel: every iteration increases `read_so_far` by at least one, and the loop
exits as soon as `read_so_far` reaches or exceeds `len`, so `len + 1` fuel is
always enough and the 0-fuel case (modelled `none`) is unreachable from
`parse_track`. -/
def parse_track_loop :
    Nat → List Nat → Nat → List TrackEvent → Nat → Option String → Option String →
    Option (Except SMFError Track)
  | 0, _, _, _, _, _, _ => none
  | fuel + 1, s, len, res, read_so_far, copyright, name =>
    let last := last_midi_status res
    match next_event s last with
    | none => none
    | some (.error e, _, _) => some (.error e)
    | some (.ok event, s', was_running) =>
      let copyright :=
        match event.event with
        | .Meta me =>
          if me.command = MetaCommand.CopyrightNotice then some (latin1_decode me.data)
          else copyright
        | _ => copyright
      let name :=
        match event.event with
        | .Meta me =>
          if me.command = MetaCommand.SequenceOrTrackName then some (latin1_decode me.data)
          else name
        | _ => name
      let read_so_far := read_so_far + event.len - (if was_running then 1 else 0)
      let res := res ++ [event]
      if read_so_far = len then some (.ok ⟨copyright, name, res⟩)
      else if read_so_far > len then some (.error (.InvalidSMFFile "Invalid MIDI file"))
      else parse_track_loop fuel s' len res read_so_far copyright name

/-- The value of the 4-byte big-endian length field as read by
reader.rs `parse_track`; the shifted u8-to-u32 casts occupy disjoint bit
ranges, so the bitwise ors of the source are plain addition. -/
def be32_val (l : List Nat) : Nat :=
  l.getD 0 0 * 2 ^ 24 + l.getD 1 0 * 2 ^ 16 + l.getD 2 0 * 2 ^ 8 + l.getD 3 0

/-- reader.rs `SMFReader::parse_track`: magic, length, then the event loop. -/
def parse_track (s : List Nat) : Option (Except SMFError Track) :=
  match fill_buf s 4 with
  | (.error e, _) => some (.error e)
  | (.ok buf, s1) =>
    if buf ≠ [0x4D, 0x54, 0x72, 0x6B] then
      some (.error (.InvalidSMFFile "Invalid track magic"))
    else
      match fill_buf s1 4 with
      | (.error e, _) => some (.error e)
      | (.ok lb, s2) =>
        let len := be32_val lb
        parse_track_loop (len + 1) s2 len [] 0 none none

/-- writer.rs `SMFWriter::write_event`: append the wire bytes of one event and
update the u32 length counter and the end-of-track flag. -/
def write_event_append (vec : List Nat) (length : Nat) (saw_eot : Bool) (event : Event) :
    List Nat × Nat × Bool :=
  match event with
  | .Midi midi => (vec ++ midi.data, (length + midi.data.length) % 2 ^ 32, saw_eot)
  | .Meta meta =>
    let vec := vec ++ [0xFF, meta.command.toU8] ++ vtime_to_vec meta.length
    let length := (length + ((vtime_to_vec meta.length).length + 2)) % 2 ^ 32
    let vec := vec ++ meta.data
    let length := (length + meta.data.length) % 2 ^ 32
    (vec, length, saw_eot || (meta.command == MetaCommand.EndOfTrack))

/-- One iteration of the event loop of writer.rs `SMFWriter::from_smf`: write
the VLQ delta time, then the event. -/
def write_track_event (st : List Nat × Nat × Bool) (e : TrackEvent) : List Nat × Nat × Bool :=
  let vec := st.1 ++ vtime_to_vec e.vtime
  let length := (st.2.1 + (vtime_to_vec e.vtime).length) % 2 ^ 32
  write_event_append vec length st.2.2 e.event

/-- writer.rs `SMFWriter::finish_track_write`: synthesize an end-of-track meta
event when none was written, then backpatch the reserved length bytes 4..7 with
the big-endian u32 length counter. -/
def finish_track_write (vec : List Nat) (length : Nat) (saw_eot : Bool) : List Nat :=
  let p :=
    if saw_eot then (vec, length)
    else (vec ++ [0] ++ [0xFF, MetaCommand.EndOfTrack.toU8] ++ [0],
          ((length + 1) % 2 ^ 32 + 3) % 2 ^ 32)
  let vec := p.1
  let length := p.2
  ((((vec.set 7 (length % 256)).set 6 (length / 2 ^ 8 % 256)).set 5
      (length / 2 ^ 16 % 256)).set 4 (length / 2 ^ 24 % 256))

/-- The per-track body of writer.rs `SMFWriter::from_smf`: a "MTrk" header with
four reserved length bytes, all events, then `finish_track_write`. -/
def from_smf_track (t : Track) : List Nat :=
  let st := t.events.foldl write_track_event ([0x4D, 0x54, 0x72, 0x6B, 0, 0, 0, 0], 0, false)
  finish_track_write st.1 st.2.1 st.2.2

/-- midi.rs `MidiMessage::status`: `Status::from_u8(self.data[0] & STATUS_MASK).unwrap()`.
`none` models a panic: the index panic on an empty buffer, or the unwrap panic
when the masked byte is not a Status discriminant. -/
def MidiMessage.statusOpt (m : MidiMessage) : Option Status :=
  match m.data with
  | [] => none
  | b :: _ => Status.from_u8 (b &&& 0xF0)

/-- midi.rs `MidiMessage::channel`: `none` models a panic propagated from
`status`; otherwise `some` of the Option the source returns. -/
def MidiMessage.channelOpt (m : MidiMessage) : Option (Option Nat) :=
  match m.statusOpt with
  | none => none
  | some st =>
    match st with
    | .NoteOff | .NoteOn | .PolyphonicAftertouch | .ControlChange
    | .ProgramChange | .ChannelAftertouch | .PitchBend =>
      some (some (m.data.headD 0 &&& 0x0F))
    | _ => some none

/-- midi.rs `MidiMessage::from_bytes`: wrap a byte vector without validation. -/
def MidiMessage.from_bytes (bytes : List Nat) : MidiMessage :=
  ⟨bytes⟩

/-- The wire bytes of one event as emitted by writer.rs `SMFWriter::write_event`
(midi messages verbatim; meta events as 0xFF, command, VLQ length, payload). -/
def event_bytes : Event → List Nat
  | .Midi m => m.data
  | .Meta me => [0xFF, me.command.toU8] ++ vtime_to_vec me.length ++ me.data

/-- The wire bytes of one track event: VLQ delta time, then the event. -/
def encodeTrackEvent (e : TrackEvent) : List Nat :=
  vtime_to_vec e.vtime ++ event_bytes e.event

/-- The concatenated wire bytes of a list of track events. -/
def encodeEvents (E : List TrackEvent) : List Nat :=
  (E.map encodeTrackEvent).flatten

/-- Whether a track contains an end-of-track meta event (the final value of the
`saw_eot` flag of writer.rs `SMFWriter::from_smf`). -/
def track_saw_eot (t : Track) : Bool :=
  t.events.any fun e =>
    match e.event with
    | .Meta me => me.command == MetaCommand.EndOfTrack
    | _ => false

/-- The end-of-track event the writer synthesizes: delta 0, meta EndOfTrack,
length 0, no payload (bytes 0x00 0xFF 0x2F 0x00). -/
def eot_event : TrackEvent :=
  ⟨0, .Meta ⟨.EndOfTrack, 0, []⟩⟩

/-- The event-stream bytes of a written track: all events, followed by the
synthesized end-of-track if none was present. -/
def track_body (t : Track) : List Nat :=
  encodeEvents t.events ++ (if track_saw_eot t then [] else [0, 0xFF, 0x2F, 0])

/-- The full event list of a written track: the original events, followed by
the synthesized end-of-track if none was present. -/
def full_events (t : Track) : List TrackEvent :=
  t.events ++ (if track_saw_eot t then [] else [eot_event])

/-- The 4-byte big-endian encoding of a u32 value. -/
def be32 (n : Nat) : List Nat :=
  [n / 2 ^ 24 % 256, n / 2 ^ 16 % 256, n / 2 ^ 8 % 256, n % 256]

/-- A well-formed midi message buffer: a complete wire message with an explicit
status byte, as the track decoder can reproduce it.  Channel-voice messages
(status 0x80..0xEF) carry exactly their data-byte count; a SysEx (status 0xF0)
ends at its first 0xF7 byte.  System statuses 0xF1..0xFF are excluded: the
decoder cannot reproduce them (C5) and 0xFF collides with the meta prefix. -/
def wf_midi (d : List Nat) : Bool :=
  match d with
  | [] => false
  | s :: ds =>
    if 128 ≤ s ∧ s < 240 then d.length == (data_bytes s).toNat + 1
    else if s = 240 then
      !ds.isEmpty && (ds.getLast? == some 0xF7) && ds.dropLast.all (fun b => !(b == 0xF7))
    else false

/-- A well-formed event: midi as in `wf_midi`; meta with the declared length
equal to the payload length and representable in at most 9 VLQ bytes. -/
def wf_event : Event → Bool
  | .Midi m => wf_midi m.data
  | .Meta me => (me.length == me.data.length) && decide (me.length < 2 ^ 63)

/-- A well-formed track event: delta time representable in at most 9 VLQ bytes
and a well-formed event. -/
def wf_track_event (e : TrackEvent) : Bool :=
  decide (e.vtime < 2 ^ 63) && wf_event e.event

/-- A well-formed track: all its events are well-formed. -/
def wf_track (t : Track) : Bool :=
  t.events.all wf_track_event

/-- The copyright capture of the parse loop folded over a list of events:
each CopyrightNotice meta event overwrites the current value. -/
def capture_cp (c : Option String) (E : List TrackEvent) : Option String :=
  E.foldl
    (fun c e =>
      match e.event with
      | .Meta me =>
        if me.command = MetaCommand.CopyrightNotice then some (latin1_decode me.data) else c
      | _ => c)
    c

/-- The name capture of the parse loop folded over a list of events. -/
def capture_nm (c : Option String) (E : List TrackEvent) : Option String :=
  E.foldl
    (fun c e =>
      match e.event with
      | .Meta me =>
        if me.command = MetaCommand.SequenceOrTrackName then some (latin1_decode me.data) else c
      | _ => c)
    c

/-- Modelled from the claim wording of C6 (first-occurrence-wins is the claim;
this is the last-occurrence value the code actually keeps): the decoded text of
the last CopyrightNotice meta event of the list, if any. -/
def spec_last_copyright (E : List TrackEvent) : Option String :=
  (E.filterMap fun e =>
    match e.event with
    | .Meta me =>
      if me.command = MetaCommand.CopyrightNotice then some (latin1_decode me.data) else none
    | _ => none).getLast?

/-- The decoded text of the last SequenceOrTrackName meta event of the list. -/
def spec_last_name (E : List TrackEvent) : Option String :=
  (E.filterMap fun e =>
    match e.event with
    | .Meta me =>
      if me.command = MetaCommand.SequenceOrTrackName then some (latin1_decode me.data) else none
    | _ => none).getLast?

/-- Helper for the VLQ proofs: the continuation bytes of a value, most
significant 7-bit group first, each with the continuation bit set.  This is the
shape of every byte of `vtime_to_vec` output except the last. -/
def contBytes (w : Nat) : List Nat :=
  if h : w < 128 then [w + 128]
  else contBytes (w / 128) ++ [w % 128 + 128]
decreasing_by exact Nat.div_lt_self (by omega) (by omega)

/-! ## Bitwise bridge lemmas -/

theorem lor_eq_add_of_dvd (i x y : Nat) (hx : 2 ^ i ∣ x) (hy : y < 2 ^ i) :
    x ||| y = x + y := by
  obtain ⟨a, rfl⟩ := hx
  apply Nat.eq_of_testBit_eq
  intro j
  rw [Nat.testBit_lor]
  have h0 : (2 ^ i * a + 0).testBit j
      = if j < i then Nat.testBit 0 j else a.testBit (j - i) :=
    Nat.testBit_mul_pow_two_add a (Nat.pos_pow_of_pos i (by omega)) j
  rw [Nat.add_zero] at h0
  rw [h0, Nat.testBit_mul_pow_two_add a hy j]
  by_cases hj : j < i
  · simp [hj]
  · have hyj : y.testBit j = false :=
      Nat.testBit_lt_two_pow (lt_of_lt_of_le hy (Nat.pow_le_pow_right (by omega) (by omega)))
    simp [hj, hyj]

theorem land_127 (n : Nat) : n &&& 127 = n % 128 := by
  have h := Nat.and_pow_two_sub_one_eq_mod n 7
  norm_num at h
  exact h

theorem land_128_eq_zero (n : Nat) (h : n < 128) : n &&& 128 = 0 := by
  have h7 : n.testBit 7 = false := Nat.testBit_lt_two_pow (by norm_num; omega)
  have := Nat.and_two_pow n 7
  norm_num [h7] at this
  exact this

theorem land_128_ne_zero (n : Nat) (h1 : 128 ≤ n) (h2 : n < 256) : n &&& 128 ≠ 0 := by
  have h7 : n.testBit 7 = true := by
    rw [Nat.testBit_to_div_mod]
    have hd : n / 2 ^ 7 % 2 = 1 := by norm_num; omega
    rw [hd]
    decide
  have hand := Nat.and_two_pow n 7
  rw [h7] at hand
  norm_num at hand
  omega

theorem zero_lor_eq (n : Nat) : 0 ||| n = n := by
  apply Nat.eq_of_testBit_eq
  intro j
  rw [Nat.testBit_lor]
  simp

theorem lor_zero_eq (n : Nat) : n ||| 0 = n := by
  apply Nat.eq_of_testBit_eq
  intro j
  rw [Nat.testBit_lor]
  simp

theorem lor_128 (b : Nat) (hb : b < 128) : b ||| 128 = b + 128 := by
  rw [Nat.lor_comm, lor_eq_add_of_dvd 7 128 b (Dvd.intro 1 (by norm_num)) (by norm_num; omega)]
  omega

/-! ## VLQ encoder structure -/

theorem vtime_to_vec_go_congr (cur : Nat) :
    ∀ f1 f2 c, cur < f1 → cur < f2 →
      vtime_to_vec_go f1 cur c = vtime_to_vec_go f2 cur c := by
  induction cur using Nat.strong_induction_on with
  | _ cur ih =>
    intro f1 f2 c h1 h2
    cases f1 with
    | zero => omega
    | succ g1 =>
      cases f2 with
      | zero => omega
      | succ g2 =>
        simp only [vtime_to_vec_go]
        by_cases hz : cur / 128 = 0
        · simp [hz]
        · have hcur : 128 ≤ cur := by
            by_contra hlt
            exact hz (Nat.div_eq_of_lt (by omega))
          have hdl : cur / 128 < cur := Nat.div_lt_self (by omega) (by omega)
          simp only [hz, if_false]
          rw [ih (cur / 128) hdl g1 g2 true (by omega) (by omega)]

theorem contBytes_ne_nil (w : Nat) : contBytes w ≠ [] := by
  rw [contBytes]
  split
  · simp
  · simp

theorem contBytes_length_pos (w : Nat) : 1 ≤ (contBytes w).length := by
  have := contBytes_ne_nil w
  cases h : contBytes w with
  | nil => exact absurd h this
  | cons a l => simp

theorem div128_ne_zero (w : Nat) (h : 128 ≤ w) : ¬ w / 128 = 0 := by
  intro hz
  have : 1 ≤ w / 128 := (Nat.one_le_div_iff (by omega)).mpr (by omega)
  omega

theorem vtime_go_true_reverse (w : Nat) :
    ∀ f, w < f → (vtime_to_vec_go f w true).reverse = contBytes w := by
  induction w using Nat.strong_induction_on with
  | _ w ih =>
    intro f hf
    cases f with
    | zero => omega
    | succ g =>
      by_cases hw : w < 128
      · have hz : w / 128 = 0 := Nat.div_eq_of_lt hw
        simp only [vtime_to_vec_go]
        rw [if_pos hz, contBytes, dif_pos hw]
        rw [if_true, land_127, Nat.mod_eq_of_lt hw, lor_128 w hw]
        simp
      · have hge : 128 ≤ w := by omega
        have hz : ¬ w / 128 = 0 := div128_ne_zero w hge
        have hdl : w / 128 < w := Nat.div_lt_self (by omega) (by omega)
        simp only [vtime_to_vec_go]
        rw [if_neg hz, List.reverse_cons, ih (w / 128) hdl g (by omega)]
        conv_rhs => rw [contBytes]
        rw [dif_neg hw]
        rw [if_true, land_127, lor_128 (w % 128) (Nat.mod_lt _ (by omega))]

theorem vtime_to_vec_lt (v : Nat) (h : v < 128) : vtime_to_vec v = [v] := by
  have hz : v / 128 = 0 := Nat.div_eq_of_lt h
  simp only [vtime_to_vec, vtime_to_vec_go]
  rw [if_pos hz, if_neg (by simp), land_127, Nat.mod_eq_of_lt h, lor_zero_eq]
  simp

theorem vtime_to_vec_ge (v : Nat) (h : 128 ≤ v) :
    vtime_to_vec v = contBytes (v / 128) ++ [v % 128] := by
  have hz : ¬ v / 128 = 0 := div128_ne_zero v h
  have hdl : v / 128 < v := Nat.div_lt_self (by omega) (by omega)
  simp only [vtime_to_vec, vtime_to_vec_go]
  rw [if_neg hz, List.reverse_cons, vtime_go_true_reverse (v / 128) v (by omega)]
  rw [if_neg (by simp), land_127, lor_zero_eq]

theorem vtime_to_vec_ne_nil (v : Nat) : vtime_to_vec v ≠ [] := by
  by_cases h : v < 128
  · rw [vtime_to_vec_lt v h]
    simp
  · rw [vtime_to_vec_ge v (by omega)]
    simp

theorem vtime_to_vec_length_pos (v : Nat) : 1 ≤ (vtime_to_vec v).length := by
  have := vtime_to_vec_ne_nil v
  cases h : vtime_to_vec v with
  | nil => exact absurd h this
  | cons a l => simp

theorem contBytes_length_le : ∀ k w, 1 ≤ k → w < 128 ^ k → (contBytes w).length ≤ k := by
  intro k
  induction k with
  | zero => omega
  | succ k ih =>
    intro w _ hw
    rw [contBytes]
    split
    · simp
    · rename_i h
      have hge : 128 ≤ w := by omega
      have hk : 1 ≤ k := by
        by_contra hk0
        have : k = 0 := by omega
        subst this
        simp at hw
        omega
      have hdiv : w / 128 < 128 ^ k := by
        rw [Nat.div_lt_iff_lt_mul (by omega)]
        calc w < 128 ^ (k + 1) := hw
        _ = 128 ^ k * 128 := by rw [Nat.pow_succ]
      have := ih (w / 128) hk hdiv
      simp only [List.length_append, List.length_cons, List.length_nil]
      omega

/-! ## VLQ decoder: processing a run of continuation bytes -/

theorem read_vtime_go_cont (w : Nat) :
    ∀ (fuel acc : Nat) (rest : List Nat),
      (contBytes w).length ≤ fuel → 2 ^ 7 ∣ acc →
      (acc * 128 ^ ((contBytes w).length - 1) + w) * 128 < 2 ^ 64 →
      read_vtime_go (contBytes w ++ rest) acc fuel
        = read_vtime_go rest ((acc * 128 ^ ((contBytes w).length - 1) + w) * 128)
            (fuel - (contBytes w).length) := by
  induction w using Nat.strong_induction_on with
  | _ w ih =>
    intro fuel acc rest hfuel hacc hbound
    by_cases hw : w < 128
    · rw [contBytes, dif_pos hw] at hfuel hbound ⊢
      simp only [List.length_cons, List.length_nil] at hfuel hbound ⊢
      obtain ⟨f, rfl⟩ : ∃ f, fuel = f + 1 := ⟨fuel - 1, by omega⟩
      simp only [read_vtime_go, List.cons_append, List.nil_append, read_byte]
      have hmask : (w + 128) &&& 127 = w := by
        rw [land_127]
        omega
      rw [hmask, lor_eq_add_of_dvd 7 acc w hacc (by norm_num; omega)]
      rw [if_neg (land_128_ne_zero (w + 128) (by omega) (by omega))]
      have hb : (acc + w) * 128 < 2 ^ 64 := by
        have h1 : acc * 128 ^ (1 - 1) = acc := by norm_num
        omega
      rw [Nat.mod_eq_of_lt hb]
      norm_num
    · have hge : 128 ≤ w := by omega
      have hdl : w / 128 < w := Nat.div_lt_self (by omega) (by omega)
      have hm1 : 1 ≤ (contBytes (w / 128)).length := contBytes_length_pos (w / 128)
      rw [contBytes, dif_neg hw] at hfuel hbound ⊢
      rw [List.length_append, List.length_cons, List.length_nil] at hfuel hbound ⊢
      simp only [Nat.add_sub_cancel] at hbound ⊢
      set m := (contBytes (w / 128)).length with hm
      have hpow : 128 ^ (m - 1) * 128 = 128 ^ m := by
        have h1 : m - 1 + 1 = m := by omega
        rw [← Nat.pow_succ, Nat.succ_eq_add_one, h1]
      have hsplit : 128 * (w / 128) + w % 128 = w := Nat.div_add_mod w 128
      have hmono : (acc * 128 ^ (m - 1) + w / 128) * 128 ≤ (acc * 128 ^ m + w) * 128 := by
        have h1 : 128 ^ (m - 1) ≤ 128 ^ m := Nat.pow_le_pow_right (by omega) (by omega)
        have h2 : acc * 128 ^ (m - 1) ≤ acc * 128 ^ m := Nat.mul_le_mul_left acc h1
        have h3 : w / 128 ≤ w := Nat.div_le_self w 128
        omega
      have hlen2 : (contBytes (w / 128)).length ≤ fuel := by
        rw [← hm]
        omega
      have hbd2 : (acc * 128 ^ ((contBytes (w / 128)).length - 1) + w / 128) * 128 < 2 ^ 64 := by
        rw [← hm]
        omega
      rw [List.append_assoc]
      rw [ih (w / 128) hdl fuel acc ([w % 128 + 128] ++ rest) hlen2 hacc hbd2]
      have hkey : (acc * 128 ^ (m - 1) + w / 128) * 128 + w % 128 = acc * 128 ^ m + w := by
        have e1 : (acc * 128 ^ (m - 1) + w / 128) * 128
            = acc * (128 ^ (m - 1) * 128) + 128 * (w / 128) := by ring
        rw [e1, hpow]
        omega
      obtain ⟨f, hf⟩ : ∃ f, fuel - m = f + 1 := ⟨fuel - m - 1, by omega⟩
      rw [hf]
      simp only [read_vtime_go, List.cons_append, List.nil_append, read_byte]
      have hmask : (w % 128 + 128) &&& 127 = w % 128 := by
        rw [land_127]
        omega
      rw [hmask]
      rw [lor_eq_add_of_dvd 7 _ (w % 128) ⟨acc * 128 ^ (m - 1) + w / 128, by ring⟩
        (by norm_num; omega)]
      rw [if_neg (land_128_ne_zero (w % 128 + 128) (by omega) (by omega))]
      rw [hkey, Nat.mod_eq_of_lt hbound]
      have hfe : f = fuel - (m + 1) := by omega
      rw [hfe]

/-- VLQ round trip: decoding the encoder output yields the value back and
consumes exactly the encoded bytes (the remaining stream is `rest`). -/
theorem read_vtime_of_encode (v : Nat) (hv : v < 2 ^ 63) (rest : List Nat) :
    read_vtime (vtime_to_vec v ++ rest) = (.ok v, rest) := by
  by_cases hlt : v < 128
  · rw [vtime_to_vec_lt v hlt]
    simp only [read_vtime, read_vtime_go, List.cons_append, List.nil_append, read_byte]
    have hmask : v &&& 127 = v := by
      rw [land_127]
      omega
    rw [hmask, zero_lor_eq, if_pos (land_128_eq_zero v hlt)]
  · have hge : 128 ≤ v := by omega
    rw [vtime_to_vec_ge v hge, List.append_assoc]
    have hm8 : (contBytes (v / 128)).length ≤ 8 := by
      apply contBytes_length_le 8 (v / 128) (by omega)
      have : v < 128 ^ 9 := by
        calc v < 2 ^ 63 := hv
        _ = 128 ^ 9 := by norm_num
      rw [Nat.div_lt_iff_lt_mul (by omega)]
      calc v < 128 ^ 9 := this
      _ = 128 ^ 8 * 128 := by norm_num
    have hm1 : 1 ≤ (contBytes (v / 128)).length := contBytes_length_pos (v / 128)
    set m := (contBytes (v / 128)).length with hm
    have hbd : (0 * 128 ^ (m - 1) + v / 128) * 128 < 2 ^ 64 := by
      have h1 : v / 128 * 128 ≤ v := Nat.div_mul_le_self v 128
      omega
    have hcont := read_vtime_go_cont (v / 128) 9 0 ([v % 128] ++ rest)
      (by rw [← hm]; omega) (Dvd.intro 0 rfl) (by rw [← hm]; exact hbd)
    rw [← hm] at hcont
    rw [read_vtime, hcont]
    obtain ⟨f, hf⟩ : ∃ f, 9 - m = f + 1 := ⟨9 - m - 1, by omega⟩
    rw [hf]
    simp only [read_vtime_go, List.cons_append, List.nil_append, read_byte]
    have hmask : v % 128 &&& 127 = v % 128 := by
      rw [land_127]
      omega
    rw [hmask]
    rw [lor_eq_add_of_dvd 7 _ (v % 128) ⟨0 * 128 ^ (m - 1) + v / 128, by ring⟩
      (by norm_num; omega)]
    rw [if_pos (land_128_eq_zero (v % 128) (by omega))]
    have hval : (0 * 128 ^ (m - 1) + v / 128) * 128 + v % 128 = v := by
      have := Nat.div_add_mod v 128
      omega
    rw [hval]

/-! ## One-event round trip -/

theorem from_u8_toU8 (c : MetaCommand) : MetaCommand.from_u8 c.toU8 = some c := by
  cases c <;> rfl

theorem read_sysex_append (mid : List Nat) :
    ∀ rest, (∀ b ∈ mid, b ≠ 0xF7) →
      read_sysex ((mid ++ [0xF7]) ++ rest) = some (mid ++ [0xF7], rest) := by
  induction mid with
  | nil =>
    intro rest _
    simp [read_sysex]
  | cons b mid ih =>
    intro rest h
    have hb : b ≠ 0xF7 := h b (List.mem_cons_self b mid)
    simp only [List.cons_append, read_sysex, if_neg hb, List.append_eq]
    rw [ih rest (fun x hx => h x (List.mem_cons_of_mem b hx))]

theorem meta_next_event_encode (me : MetaEvent) (rest : List Nat)
    (h1 : me.length = me.data.length) (h2 : me.length < 2 ^ 63) :
    MetaEvent.next_event (me.command.toU8 :: (vtime_to_vec me.length ++ (me.data ++ rest)))
      = some (.ok me, rest) := by
  simp only [MetaEvent.next_event, read_byte, from_u8_toU8]
  rw [read_vtime_of_encode me.length h2 (me.data ++ rest)]
  simp only [read_amount, h1]
  rw [if_pos (by simp), List.take_left, List.drop_left]
  rw [← h1]

set_option maxRecDepth 4000 in
theorem data_bytes_voice : ∀ s : Nat, s < 240 → 128 ≤ s → data_bytes s = 1 ∨ data_bytes s = 2 := by
  decide

set_option maxRecDepth 4000 in
theorem voice_not_running : ∀ s : Nat, s < 240 → 128 ≤ s → (s &&& 128 == 0) = false := by
  decide

theorem data_bytes_240 : data_bytes 240 = -2 := rfl

theorem next_message_given_status_encode (s : Nat) (ds rest : List Nat)
    (h : wf_midi (s :: ds) = true) :
    next_message_given_status s (ds ++ rest) = some (.ok ⟨s :: ds⟩, rest) := by
  rw [wf_midi] at h
  by_cases hv : 128 ≤ s ∧ s < 240
  · rw [if_pos hv] at h
    have hlen : (s :: ds).length = (data_bytes s).toNat + 1 := eq_of_beq h
    rcases data_bytes_voice s hv.2 hv.1 with hdb | hdb
    · rw [hdb] at hlen
      norm_num at hlen
      obtain ⟨d1, rfl⟩ : ∃ d1, ds = [d1] := by
        cases ds with
        | nil => simp at hlen
        | cons a l =>
          cases l with
          | nil => exact ⟨a, rfl⟩
          | cons b m => simp at hlen
      simp only [next_message_given_status, hdb]
      norm_num [read_byte]
    · rw [hdb] at hlen
      norm_num at hlen
      obtain ⟨d1, d2, rfl⟩ : ∃ d1 d2, ds = [d1, d2] := by
        cases ds with
        | nil => simp at hlen
        | cons a l =>
          cases l with
          | nil => simp at hlen
          | cons b m =>
            cases m with
            | nil => exact ⟨a, b, rfl⟩
            | cons c p => simp at hlen
      simp only [next_message_given_status, hdb]
      norm_num [read_byte]
  · rw [if_neg hv] at h
    by_cases hs : s = 240
    · subst hs
      rw [if_pos rfl] at h
      simp only [Bool.and_eq_true] at h
      obtain ⟨⟨h1, h2⟩, h3⟩ := h
      have hne : ds ≠ [] := by
        cases ds with
        | nil => simp at h1
        | cons a l => simp
      have hlast : ds.getLast hne = 0xF7 := by
        have := eq_of_beq h2
        rw [List.getLast?_eq_getLast ds hne] at this
        exact Option.some_injective _ this
      have hsplit : ds.dropLast ++ [0xF7] = ds := by
        rw [← hlast]
        exact List.dropLast_append_getLast hne
      have hmid : ∀ b ∈ ds.dropLast, b ≠ 0xF7 := by
        intro b hb
        have := List.all_eq_true.mp h3 b hb
        simp at this
        omega
      simp only [next_message_given_status, data_bytes_240]
      norm_num
      rw [← hsplit]
      rw [read_sysex_append ds.dropLast rest hmid]
    · rw [if_neg hs] at h
      simp at h

theorem wf_midi_bounds (s : Nat) (ds : List Nat) (h : wf_midi (s :: ds) = true) :
    128 ≤ s ∧ s ≤ 240 := by
  rw [wf_midi] at h
  by_cases hv : 128 ≤ s ∧ s < 240
  · omega
  · rw [if_neg hv] at h
    by_cases hs : s = 240
    · omega
    · rw [if_neg hs] at h
      simp at h

set_option maxRecDepth 4000 in
theorem status_not_running : ∀ s : Nat, s ≤ 240 → 128 ≤ s → (s &&& 128 == 0) = false := by
  decide

theorem encode_event_len (e : TrackEvent) : (encodeTrackEvent e).length = e.len := by
  obtain ⟨v, ev⟩ := e
  cases ev with
  | Midi m => simp [encodeTrackEvent, event_bytes, TrackEvent.len, Event.len]
  | Meta me =>
    simp [encodeTrackEvent, event_bytes, TrackEvent.len, Event.len]

theorem next_event_encode (e : TrackEvent) (laststat : Nat) (rest : List Nat)
    (hwf : wf_track_event e = true) :
    next_event (encodeTrackEvent e ++ rest) laststat = some (.ok e, rest, false) := by
  obtain ⟨v, ev⟩ := e
  simp only [wf_track_event, Bool.and_eq_true, decide_eq_true_eq] at hwf
  obtain ⟨hv, hev⟩ := hwf
  cases ev with
  | Meta me =>
    rw [wf_event] at hev
    simp only [Bool.and_eq_true, decide_eq_true_eq] at hev
    obtain ⟨hl, hb⟩ := hev
    have hl' : me.length = me.data.length := eq_of_beq hl
    simp only [encodeTrackEvent, event_bytes, List.append_assoc, List.cons_append,
      List.nil_append]
    simp only [next_event]
    rw [read_vtime_of_encode v hv]
    simp only [read_byte, if_pos rfl]
    rw [meta_next_event_encode me rest hl' hb]
    simp
  | Midi m =>
    cases hd : m.data with
    | nil =>
      rw [wf_event, hd] at hev
      simp [wf_midi] at hev
    | cons s ds =>
      rw [wf_event, hd] at hev
      obtain ⟨hs1, hs2⟩ := wf_midi_bounds s ds hev
      have hne : ¬ s = 255 := by omega
      have hnr : (s &&& 128 == 0) = false := status_not_running s hs2 hs1
      simp only [encodeTrackEvent, event_bytes, hd, List.append_assoc, List.cons_append,
        List.nil_append]
      simp only [next_event]
      rw [read_vtime_of_encode v hv]
      simp only [read_byte]
      rw [if_neg hne, hnr]
      simp only [Bool.false_eq_true, if_false]
      rw [next_message_given_status_encode s ds rest hev]
      rw [← hd]

/-! ## Parse loop over encoded events -/

theorem encodeEvents_nil : encodeEvents [] = [] := rfl

theorem encodeEvents_cons (e : TrackEvent) (E : List TrackEvent) :
    encodeEvents (e :: E) = encodeTrackEvent e ++ encodeEvents E := by
  simp [encodeEvents]

theorem encodeEvents_append (A B : List TrackEvent) :
    encodeEvents (A ++ B) = encodeEvents A ++ encodeEvents B := by
  simp [encodeEvents]

theorem encodeTrackEvent_length_pos (e : TrackEvent) : 1 ≤ (encodeTrackEvent e).length := by
  simp only [encodeTrackEvent, List.length_append]
  have := vtime_to_vec_length_pos e.vtime
  omega

theorem parse_loop_encode :
    ∀ (E : List TrackEvent) (fuel : Nat) (acc : List TrackEvent) (rsf len : Nat)
      (cp nm : Option String),
      E ≠ [] → (∀ e ∈ E, wf_track_event e = true) →
      len = rsf + (encodeEvents E).length →
      len < rsf + fuel →
      parse_track_loop fuel (encodeEvents E) len acc rsf cp nm
        = some (.ok ⟨capture_cp cp E, capture_nm nm E, acc ++ E⟩) := by
  intro E
  induction E with
  | nil =>
    intro fuel acc rsf len cp nm hne
    exact absurd rfl hne
  | cons e E ih =>
    intro fuel acc rsf len cp nm _ hwf hlen hfuel
    have hwfe : wf_track_event e = true := hwf e (List.mem_cons_self e E)
    have henc : (encodeTrackEvent e).length = e.len := encode_event_len e
    have hpos : 1 ≤ (encodeTrackEvent e).length := encodeTrackEvent_length_pos e
    rw [encodeEvents_cons] at hlen ⊢
    rw [List.length_append] at hlen
    obtain ⟨f, rfl⟩ : ∃ f, fuel = f + 1 := ⟨fuel - 1, by omega⟩
    simp only [parse_track_loop]
    rw [next_event_encode e (last_midi_status acc) (encodeEvents E) hwfe]
    simp only [if_false, Bool.false_eq_true, Nat.sub_zero]
    cases E with
    | nil =>
      rw [encodeEvents_nil, List.length_nil] at hlen
      rw [if_pos (by omega : rsf + e.len = len)]
      simp [capture_cp, capture_nm]
    | cons e2 E2 =>
      have hpos2 : 1 ≤ (encodeEvents (e2 :: E2)).length := by
        rw [encodeEvents_cons, List.length_append]
        have := encodeTrackEvent_length_pos e2
        omega
      rw [if_neg (by omega : ¬ rsf + e.len = len)]
      rw [if_neg (by omega : ¬ rsf + e.len > len)]
      rw [ih f (acc ++ [e]) (rsf + e.len)
        len _ _ (by simp) (fun x hx => hwf x (List.mem_cons_of_mem e hx))
        (by omega) (by omega)]
      simp [capture_cp, capture_nm]

/-! ## Writer structure -/

theorem write_track_event_eq (vec : List Nat) (len : Nat) (saw : Bool) (e : TrackEvent)
    (_hlen : len < 2 ^ 32) :
    write_track_event (vec, len, saw) e
      = (vec ++ encodeTrackEvent e, (len + (encodeTrackEvent e).length) % 2 ^ 32,
         saw || (match e.event with
           | .Meta me => me.command == MetaCommand.EndOfTrack
           | _ => false)) := by
  obtain ⟨v, ev⟩ := e
  cases ev with
  | Midi m =>
    simp only [write_track_event, write_event_append, encodeTrackEvent, event_bytes,
      List.append_assoc, List.length_append, Prod.mk.injEq]
    refine ⟨trivial, by omega, by simp⟩
  | Meta me =>
    simp only [write_track_event, write_event_append, encodeTrackEvent, event_bytes,
      List.append_assoc, List.length_append, List.length_cons, List.length_nil,
      Prod.mk.injEq]
    refine ⟨trivial, by omega, by simp⟩

theorem write_fold (evs : List TrackEvent) :
    ∀ (vec : List Nat) (len : Nat) (saw : Bool), len < 2 ^ 32 →
      evs.foldl write_track_event (vec, len, saw)
        = (vec ++ encodeEvents evs, (len + (encodeEvents evs).length) % 2 ^ 32,
           saw || evs.any fun e =>
             match e.event with
             | .Meta me => me.command == MetaCommand.EndOfTrack
             | _ => false) := by
  induction evs with
  | nil =>
    intro vec len saw hlen
    simp only [List.foldl_nil, encodeEvents_nil, List.append_nil, List.length_nil,
      Nat.add_zero, List.any_nil, Bool.or_false]
    rw [Nat.mod_eq_of_lt hlen]
  | cons e evs ih =>
    intro vec len saw hlen
    rw [List.foldl_cons, write_track_event_eq vec len saw e hlen,
      ih _ _ _ (Nat.mod_lt _ (by norm_num))]
    rw [encodeEvents_cons]
    simp only [Prod.mk.injEq, List.append_assoc, List.length_append, List.any_cons,
      Bool.or_assoc]
    refine ⟨trivial, by omega, by simp⟩

theorem set_header (body : List Nat) (L : Nat) :
    ((((77 :: 84 :: 114 :: 107 :: 0 :: 0 :: 0 :: 0 :: body).set 7 (L % 256)).set 6
        (L / 2 ^ 8 % 256)).set 5 (L / 2 ^ 16 % 256)).set 4 (L / 2 ^ 24 % 256)
      = 77 :: 84 :: 114 :: 107 :: (L / 2 ^ 24 % 256) :: (L / 2 ^ 16 % 256) ::
          (L / 2 ^ 8 % 256) :: (L % 256) :: body := by
  simp [List.set]

theorem from_smf_track_eq (t : Track) :
    from_smf_track t
      = [0x4D, 0x54, 0x72, 0x6B] ++ be32 ((track_body t).length % 2 ^ 32) ++ track_body t := by
  simp only [from_smf_track]
  rw [write_fold t.events [0x4D, 0x54, 0x72, 0x6B, 0, 0, 0, 0] 0 false (by norm_num)]
  simp only [Bool.false_or, Nat.zero_add]
  by_cases hsaw : track_saw_eot t = true
  · have hsaw' := hsaw
    rw [track_saw_eot] at hsaw'
    simp only [finish_track_write, hsaw', if_true]
    have hbody : track_body t = encodeEvents t.events := by
      rw [track_body, hsaw]
      simp
    rw [hbody]
    simp only [List.cons_append, List.nil_append, set_header, be32]
  · have hsaw' : (t.events.any fun e =>
        match e.event with
        | .Meta me => me.command == MetaCommand.EndOfTrack
        | _ => false) = false := by
      rw [← track_saw_eot]
      simp at hsaw
      exact hsaw
    simp only [finish_track_write, hsaw', Bool.false_eq_true, if_false]
    have hbody : track_body t = encodeEvents t.events ++ [0, 0xFF, 0x2F, 0] := by
      rw [track_body]
      simp at hsaw
      rw [hsaw]
      simp
    rw [hbody]
    have hmod : (((encodeEvents t.events).length % 2 ^ 32 + 1) % 2 ^ 32 + 3) % 2 ^ 32
        = ((encodeEvents t.events).length + 4) % 2 ^ 32 := by
      omega
    have hL : ((encodeEvents t.events ++ [0, 0xFF, 0x2F, 0]).length) % 2 ^ 32
        = ((encodeEvents t.events).length + 4) % 2 ^ 32 := by
      simp [List.length_append]
    rw [hL]
    simp only [MetaCommand.toU8, List.append_assoc, List.cons_append, List.nil_append]
    rw [hmod]
    simp only [set_header, be32]
    simp

/-! ## Parser applied to writer output -/

theorem track_body_eq (t : Track) : track_body t = encodeEvents (full_events t) := by
  rw [track_body, full_events]
  by_cases hsaw : track_saw_eot t = true
  · rw [if_pos hsaw, if_pos hsaw]
    simp
  · rw [if_neg hsaw, if_neg hsaw, encodeEvents_append]
    rfl

theorem be32_val_be32 (n : Nat) (h : n < 2 ^ 32) : be32_val (be32 n) = n := by
  simp [be32, be32_val]
  omega

theorem full_events_ne_nil (t : Track) : full_events t ≠ [] := by
  by_cases hsaw : track_saw_eot t = true
  · rw [full_events, if_pos hsaw, List.append_nil]
    intro h
    rw [track_saw_eot, h] at hsaw
    simp at hsaw
  · rw [full_events, if_neg hsaw]
    simp

theorem wf_full_events (t : Track) (h : wf_track t = true) :
    ∀ e ∈ full_events t, wf_track_event e = true := by
  intro e he
  rw [full_events] at he
  rcases List.mem_append.mp he with h1 | h2
  · exact List.all_eq_true.mp h e h1
  · by_cases hsaw : track_saw_eot t = true
    · rw [if_pos hsaw] at h2
      simp at h2
    · rw [if_neg hsaw] at h2
      simp at h2
      subst h2
      decide

theorem fill_buf_four (a b c d : Nat) (rest : List Nat) :
    fill_buf (a :: b :: c :: d :: rest) 4 = (.ok [a, b, c, d], rest) := by
  rw [fill_buf, if_pos (by simp)]
  simp

/-- The central round trip: parsing the writer output of a well-formed track
whose event stream fits the u32 length field yields exactly the original
events with the synthesized end-of-track appended when absent, and the
copyright and name captured by the parse loop folds. -/
theorem parse_from_smf_track (t : Track) (hwf : wf_track t = true)
    (hlen : (track_body t).length < 2 ^ 32) :
    parse_track (from_smf_track t)
      = some (.ok ⟨capture_cp none (full_events t), capture_nm none (full_events t),
          full_events t⟩) := by
  rw [from_smf_track_eq t, Nat.mod_eq_of_lt hlen]
  rw [parse_track]
  simp only [be32, List.cons_append, List.nil_append, fill_buf_four]
  norm_num
  have hL := be32_val_be32 ((track_body t).length) hlen
  rw [be32] at hL
  norm_num at hL
  rw [hL]
  have hlenE : (track_body t).length = (encodeEvents (full_events t)).length := by
    rw [track_body_eq]
  rw [track_body_eq t]
  rw [parse_loop_encode (full_events t) ((encodeEvents (full_events t)).length + 1) [] 0
    ((encodeEvents (full_events t)).length) none none (full_events_ne_nil t)
    (wf_full_events t hwf) (by omega) (by omega)]
  simp

/-! ## The captured copyright and name are the last occurrences -/

theorem capture_fold_spec (cmd : MetaCommand) (E : List TrackEvent) :
    ∀ c : Option String,
      E.foldl
        (fun c e =>
          match e.event with
          | .Meta me => if me.command = cmd then some (latin1_decode me.data) else c
          | _ => c)
        c
      = (((E.filterMap fun e =>
            match e.event with
            | .Meta me => if me.command = cmd then some (latin1_decode me.data) else none
            | _ => none).getLast?).map some).getD c := by
  induction E using List.reverseRecOn with
  | nil => intro c; rfl
  | append_singleton E e ih =>
    intro c
    rw [List.foldl_append, List.foldl_cons, List.foldl_nil, ih c, List.filterMap_append]
    obtain ⟨v, ev⟩ := e
    cases ev with
    | Midi m => simp
    | Meta me =>
      by_cases hc : me.command = cmd
      · simp [hc]
      · simp [hc]

theorem capture_cp_eq_last (E : List TrackEvent) :
    capture_cp none E = spec_last_copyright E := by
  rw [capture_cp, spec_last_copyright, capture_fold_spec MetaCommand.CopyrightNotice E none]
  cases (E.filterMap fun e =>
      match e.event with
      | .Meta me =>
        if me.command = MetaCommand.CopyrightNotice then some (latin1_decode me.data) else none
      | _ => none).getLast? with
  | none => rfl
  | some x => rfl

theorem capture_nm_eq_last (E : List TrackEvent) :
    capture_nm none E = spec_last_name E := by
  rw [capture_nm, spec_last_name, capture_fold_spec MetaCommand.SequenceOrTrackName E none]
  cases (E.filterMap fun e =>
      match e.event with
      | .Meta me =>
        if me.command = MetaCommand.SequenceOrTrackName then some (latin1_decode me.data) else none
      | _ => none).getLast? with
  | none => rfl
  | some x => rfl

theorem spec_last_copyright_full (t : Track) :
    spec_last_copyright (full_events t) = spec_last_copyright t.events := by
  rw [full_events]
  by_cases hsaw : track_saw_eot t = true
  · rw [if_pos hsaw]
    simp
  · rw [if_neg hsaw]
    rw [spec_last_copyright, spec_last_copyright, List.filterMap_append]
    simp [eot_event]

theorem spec_last_name_full (t : Track) :
    spec_last_name (full_events t) = spec_last_name t.events := by
  rw [full_events]
  by_cases hsaw : track_saw_eot t = true
  · rw [if_pos hsaw]
    simp
  · rw [if_neg hsaw]
    rw [spec_last_name, spec_last_name, List.filterMap_append]
    simp [eot_event]

/-! ## Running status: decoding with and without the explicit status byte -/

theorem next_event_running_eq (v s b l2 : Nat) (rest : List Nat)
    (hv : v < 2 ^ 63) (hs1 : 128 ≤ s) (hs2 : s < 240) (hb : b < 128) :
    ((next_event (vtime_to_vec v ++ (b :: rest)) s).map fun r => (r.1, r.2.1))
      = ((next_event (vtime_to_vec v ++ (s :: b :: rest)) l2).map fun r => (r.1, r.2.1))
    ∧ ∃ m rem, next_event (vtime_to_vec v ++ (b :: rest)) s
        = some (.ok ⟨v, .Midi m⟩, rem, true) := by
  have hbne : ¬ b = 255 := by omega
  have hbr : (b &&& 128 == 0) = true := by
    rw [land_128_eq_zero b hb]
    rfl
  have hsne : ¬ s = 255 := by omega
  have hsr : (s &&& 128 == 0) = false := status_not_running s (by omega) hs1
  simp only [next_event]
  rw [read_vtime_of_encode v hv (b :: rest), read_vtime_of_encode v hv (s :: b :: rest)]
  simp only [read_byte]
  rw [if_neg hbne, if_neg hsne, hbr, hsr]
  simp only [if_true, Bool.false_eq_true, if_false]
  rcases data_bytes_voice s hs2 hs1 with hdb | hdb
  · simp only [next_message_running_status, next_message_given_status, hdb]
    norm_num [read_byte]
  · simp only [next_message_running_status, next_message_given_status, hdb]
    norm_num [read_byte]

/-! ## Overlong VLQ input -/

theorem read_vtime_go_cont_error :
    ∀ (fuel : Nat) (s : List Nat) (res : Nat),
      fuel ≤ s.length → (∀ b ∈ s.take fuel, b &&& 128 ≠ 0) →
      read_vtime_go s res fuel
        = (.error (.InvalidSMFFile "Variable length value too long"), s.drop fuel) := by
  intro fuel
  induction fuel with
  | zero =>
    intro s res _ _
    simp [read_vtime_go]
  | succ f ih =>
    intro s res hlen hcont
    cases s with
    | nil => simp at hlen
    | cons b tl =>
      have hb : b &&& 128 ≠ 0 := by
        apply hcont b
        rw [List.take_succ_cons]
        exact List.mem_cons_self b _
      simp only [read_vtime_go, read_byte]
      rw [if_neg hb]
      rw [ih tl _ (by simpa using hlen)
        (fun x hx => hcont x (by rw [List.take_succ_cons]; exact List.mem_cons_of_mem b hx))]
      rw [List.drop_succ_cons]

/-! ## Claims -/

/-- C1: for every u64 value v representable in at most 9 encoded bytes
(v < 2 ^ 63), decoding the byte sequence produced by the VLQ encoder for v
yields exactly v and consumes exactly the bytes the encoder produced (the
remaining stream is the unconsumed `rest`); and the five concrete encodings
of the claim hold. -/
theorem c1_vlq_round_trip :
    (∀ v : Nat, v < 2 ^ 63 → ∀ rest : List Nat,
        read_vtime (vtime_to_vec v ++ rest) = (.ok v, rest))
    ∧ vtime_to_vec 0 = [0x00]
    ∧ vtime_to_vec 127 = [0x7F]
    ∧ vtime_to_vec 128 = [0x81, 0x00]
    ∧ vtime_to_vec 16383 = [0xFF, 0x7F]
    ∧ vtime_to_vec 16384 = [0x81, 0x80, 0x00] :=
  ⟨fun v hv rest => read_vtime_of_encode v hv rest,
   by decide, by decide, by decide, by decide, by decide⟩

theorem c1_vlq_round_trip_witness :
    (16384 : Nat) < 2 ^ 63
    ∧ read_vtime (vtime_to_vec 16384 ++ [0x2A]) = (.ok 16384, [0x2A]) :=
  ⟨by decide, c1_vlq_round_trip.1 16384 (by decide) [0x2A]⟩

/-- C2 counterexample: the claim quantifies over every Track, but a track whose
midi message is an incomplete NoteOn (buffer [0x90], missing its two data
bytes) encodes to a chunk whose re-parse fails with "Invalid MIDI file" instead
of yielding the original event list plus the synthesized EndOfTrack. -/
theorem c2_counterexample :
    parse_track (from_smf_track ⟨none, none, [⟨0, .Midi ⟨[0x90]⟩⟩]⟩)
      = some (.error (.InvalidSMFFile "Invalid MIDI file")) := rfl

/-- C2 (amended): for every well-formed track (each midi event a complete
channel-voice or SysEx message with explicit status byte, each meta event with
declared length equal to its payload length and below 2 ^ 63, delta times below
2 ^ 63) whose event stream fits the u32 length field, re-parsing the produced
MTrk chunk yields exactly the original event list, with one synthesized
EndOfTrack of delta 0 appended when the original track contained none. -/
theorem c2_track_round_trip (t : Track) (hwf : wf_track t = true)
    (hlen : (track_body t).length < 2 ^ 32) :
    parse_track (from_smf_track t)
      = some (.ok ⟨capture_cp none (full_events t), capture_nm none (full_events t),
          full_events t⟩) :=
  parse_from_smf_track t hwf hlen

theorem c2_track_round_trip_witness :
    wf_track ⟨none, none, [⟨0, .Midi ⟨[0x90, 69, 100]⟩⟩, ⟨10, .Midi ⟨[0x80, 69, 100]⟩⟩]⟩ = true
    ∧ (track_body ⟨none, none, [⟨0, .Midi ⟨[0x90, 69, 100]⟩⟩,
        ⟨10, .Midi ⟨[0x80, 69, 100]⟩⟩]⟩).length < 2 ^ 32
    ∧ parse_track (from_smf_track ⟨none, none, [⟨0, .Midi ⟨[0x90, 69, 100]⟩⟩,
        ⟨10, .Midi ⟨[0x80, 69, 100]⟩⟩]⟩)
      = some (.ok ⟨capture_cp none (full_events ⟨none, none, [⟨0, .Midi ⟨[0x90, 69, 100]⟩⟩,
          ⟨10, .Midi ⟨[0x80, 69, 100]⟩⟩]⟩),
          capture_nm none (full_events ⟨none, none, [⟨0, .Midi ⟨[0x90, 69, 100]⟩⟩,
            ⟨10, .Midi ⟨[0x80, 69, 100]⟩⟩]⟩),
          full_events ⟨none, none, [⟨0, .Midi ⟨[0x90, 69, 100]⟩⟩,
            ⟨10, .Midi ⟨[0x80, 69, 100]⟩⟩]⟩⟩) :=
  ⟨by decide, by decide, c2_track_round_trip _ (by decide) (by decide)⟩

/-- C3: for every track emitted by the writer whose event stream fits the
4-byte field, the backpatched big-endian chunk length equals the exact byte
count of the event stream that follows (the body including any synthesized
EndOfTrack), and reading the field back as a big-endian u32 yields that
count. -/
theorem c3_track_length_field (t : Track) (hlen : (track_body t).length < 2 ^ 32) :
    from_smf_track t = [0x4D, 0x54, 0x72, 0x6B] ++ be32 ((track_body t).length) ++ track_body t
    ∧ be32_val (be32 ((track_body t).length)) = (track_body t).length := by
  constructor
  · rw [from_smf_track_eq t, Nat.mod_eq_of_lt hlen]
  · exact be32_val_be32 _ hlen

theorem c3_track_length_field_witness :
    (track_body ⟨none, none, [⟨0, .Midi ⟨[0x90, 69, 100]⟩⟩]⟩).length < 2 ^ 32
    ∧ (from_smf_track ⟨none, none, [⟨0, .Midi ⟨[0x90, 69, 100]⟩⟩]⟩
        = [0x4D, 0x54, 0x72, 0x6B]
          ++ be32 ((track_body ⟨none, none, [⟨0, .Midi ⟨[0x90, 69, 100]⟩⟩]⟩).length)
          ++ track_body ⟨none, none, [⟨0, .Midi ⟨[0x90, 69, 100]⟩⟩]⟩
      ∧ be32_val (be32 ((track_body ⟨none, none, [⟨0, .Midi ⟨[0x90, 69, 100]⟩⟩]⟩).length))
        = (track_body ⟨none, none, [⟨0, .Midi ⟨[0x90, 69, 100]⟩⟩]⟩).length) :=
  ⟨by decide, c3_track_length_field _ (by decide)⟩

/-- C4 counterexample: in this track the most recent preceding MIDI channel
message before the running-status byte 0x3D is the NoteOn 0x90, but a SysEx
midi event intervenes; the decoder reuses the SysEx status 0xF0 (byte 0 of the
most recent midi event, channel message or not) and fails, instead of decoding
a TrackEvent with the channel status 0x90 as the claim asserts. -/
theorem c4_counterexample :
    parse_track [0x4D, 0x54, 0x72, 0x6B, 0, 0, 0, 10,
        0, 0x90, 0x3C, 0x40, 0, 0xF0, 0xF7, 0, 0x3D, 0x40]
      = some (.error (.MidiError
          (.OtherErr "Running status not permitted with meta and sysex event"))) := rfl

/-- C4 (amended): when the byte in status position has a clear high bit, the
decoder reuses the status of the most recent preceding MIDI event; whenever
that status is a channel-voice status (0x80..0xEF, the 1- and 2-data-byte
kinds), the decoded TrackEvent and the remaining stream are identical to those
of the stream with the status byte explicit, and decoding succeeds with the
running flag set. -/
theorem c4_running_status (v s b l2 : Nat) (rest : List Nat)
    (hv : v < 2 ^ 63) (hs1 : 128 ≤ s) (hs2 : s < 240) (hb : b < 128) :
    ((next_event (vtime_to_vec v ++ (b :: rest)) s).map fun r => (r.1, r.2.1))
      = ((next_event (vtime_to_vec v ++ (s :: b :: rest)) l2).map fun r => (r.1, r.2.1))
    ∧ ∃ m rem, next_event (vtime_to_vec v ++ (b :: rest)) s
        = some (.ok ⟨v, .Midi m⟩, rem, true) :=
  next_event_running_eq v s b l2 rest hv hs1 hs2 hb

theorem c4_running_status_witness :
    (0 : Nat) < 2 ^ 63 ∧ (128 : Nat) ≤ 0x90 ∧ (0x90 : Nat) < 240 ∧ (60 : Nat) < 128
    ∧ (((next_event (vtime_to_vec 0 ++ (60 :: [64])) 0x90).map fun r => (r.1, r.2.1))
        = ((next_event (vtime_to_vec 0 ++ (0x90 :: 60 :: [64])) 0).map fun r => (r.1, r.2.1))
      ∧ ∃ m rem, next_event (vtime_to_vec 0 ++ (60 :: [64])) 0x90
          = some (.ok ⟨0, .Midi m⟩, rem, true)) :=
  ⟨by decide, by decide, by decide, by decide,
   c4_running_status 0 0x90 60 0 [64] (by decide) (by decide) (by decide) (by decide)⟩

/-- C5: `data_bytes` masks the status with 0xF0 before the Status lookup, so
the status 0xF2 (SongPositionPointer, a known message kind for which the claim
demands exactly 2 data bytes) is treated as SysExStart and read until a 0xF7
byte; likewise every other system status 0xF1..0xFF maps to -2.  The message
decoded from [0xF2, 0x01, 0x02, 0xF7, ...] is the 4-byte [0xF2, 0x01, 0x02,
0xF7], not the 3-byte [0xF2, 0x01, 0x02]. -/
theorem c5_data_bytes_masks_system_status :
    Status.from_u8 0xF2 = some .SongPositionPointer
    ∧ data_bytes 0xF2 = -2
    ∧ next_message_given_status 0xF2 [0x01, 0x02, 0xF7, 0x09]
        = some (.ok ⟨[0xF2, 0x01, 0x02, 0xF7]⟩, [0x09])
    ∧ data_bytes 0xF6 = -2
    ∧ data_bytes 0xF8 = -2 :=
  ⟨rfl, rfl, rfl, rfl, rfl⟩

/-- C6 counterexample: a track with two CopyrightNotice meta events, texts "A"
(byte 65) then "B" (byte 66); the parser returns the text of the second one,
so the later occurrence does overwrite the value captured from the first,
contradicting first-occurrence-wins. -/
theorem c6_counterexample :
    parse_track [0x4D, 0x54, 0x72, 0x6B, 0, 0, 0, 14,
        0, 0xFF, 0x02, 1, 65, 0, 0xFF, 0x02, 1, 66, 0, 0xFF, 0x2F, 0]
      = some (.ok ⟨some "B", none,
          [⟨0, .Meta ⟨.CopyrightNotice, 1, [65]⟩⟩,
           ⟨0, .Meta ⟨.CopyrightNotice, 1, [66]⟩⟩,
           ⟨0, .Meta ⟨.EndOfTrack, 0, []⟩⟩]⟩)
    ∧ latin1_decode [65] = "A"
    ∧ latin1_decode [66] = "B" :=
  ⟨rfl, by decide, by decide⟩

/-- C6 (amended): the copyright string captured on the parsed track is the
decoded text of the LAST CopyrightNotice meta event and the name string is
the decoded text of the LAST SequenceOrTrackName meta event: each occurrence
overwrites the previously captured value. -/
theorem c6_capture_last (t : Track) (hwf : wf_track t = true)
    (hlen : (track_body t).length < 2 ^ 32) :
    parse_track (from_smf_track t)
      = some (.ok ⟨spec_last_copyright t.events, spec_last_name t.events, full_events t⟩) := by
  rw [parse_from_smf_track t hwf hlen, capture_cp_eq_last, capture_nm_eq_last,
    spec_last_copyright_full, spec_last_name_full]

theorem c6_capture_last_witness :
    wf_track ⟨none, none, [⟨0, .Meta ⟨.CopyrightNotice, 1, [65]⟩⟩,
        ⟨0, .Meta ⟨.CopyrightNotice, 1, [66]⟩⟩]⟩ = true
    ∧ (track_body ⟨none, none, [⟨0, .Meta ⟨.CopyrightNotice, 1, [65]⟩⟩,
        ⟨0, .Meta ⟨.CopyrightNotice, 1, [66]⟩⟩]⟩).length < 2 ^ 32
    ∧ parse_track (from_smf_track ⟨none, none, [⟨0, .Meta ⟨.CopyrightNotice, 1, [65]⟩⟩,
        ⟨0, .Meta ⟨.CopyrightNotice, 1, [66]⟩⟩]⟩)
      = some (.ok ⟨spec_last_copyright [⟨0, .Meta ⟨.CopyrightNotice, 1, [65]⟩⟩,
          ⟨0, .Meta ⟨.CopyrightNotice, 1, [66]⟩⟩],
          spec_last_name [⟨0, .Meta ⟨.CopyrightNotice, 1, [65]⟩⟩,
            ⟨0, .Meta ⟨.CopyrightNotice, 1, [66]⟩⟩],
          full_events ⟨none, none, [⟨0, .Meta ⟨.CopyrightNotice, 1, [65]⟩⟩,
            ⟨0, .Meta ⟨.CopyrightNotice, 1, [66]⟩⟩]⟩⟩) :=
  ⟨by decide, by decide, c6_capture_last _ (by decide) (by decide)⟩

/-- C7: decoding a meta event whose command byte is outside the known
MetaCommand set succeeds, yielding command Unknown with the declared VLQ
length and the payload bytes intact; the unknown command never aborts the
parse. -/
theorem c7_unknown_meta (cmd n : Nat) (payload rest : List Nat)
    (h1 : MetaCommand.from_u8 cmd = none) (h2 : n < 2 ^ 63) (h3 : payload.length = n) :
    MetaEvent.next_event (cmd :: (vtime_to_vec n ++ (payload ++ rest)))
      = some (.ok ⟨.Unknown, n, payload⟩, rest) := by
  simp only [MetaEvent.next_event, read_byte, h1]
  rw [read_vtime_of_encode n h2]
  simp only [read_amount, ← h3]
  rw [if_pos (by simp), List.take_left, List.drop_left]

theorem c7_unknown_meta_witness :
    MetaCommand.from_u8 0x10 = none ∧ (3 : Nat) < 2 ^ 63 ∧ ([7, 8, 9] : List Nat).length = 3
    ∧ MetaEvent.next_event (0x10 :: (vtime_to_vec 3 ++ ([7, 8, 9] ++ [0x2A])))
      = some (.ok ⟨.Unknown, 3, [7, 8, 9]⟩, [0x2A]) :=
  ⟨rfl, by decide, rfl, c7_unknown_meta 0x10 3 [7, 8, 9] [0x2A] rfl (by decide) rfl⟩

/-- C8: on a stream whose first 10 bytes all carry the continuation bit,
`read_vtime` fails with the "Variable length value too long" structural error
after consuming exactly 9 bytes (the remaining stream is `s.drop 9`); the
model function is total, so the loop cannot hang. -/
theorem c8_vlq_overlong (s : List Nat) (h1 : 10 ≤ s.length)
    (h2 : ∀ b ∈ s.take 10, b &&& 128 ≠ 0) :
    read_vtime s = (.error (.InvalidSMFFile "Variable length value too long"), s.drop 9) := by
  rw [read_vtime]
  refine read_vtime_go_cont_error 9 s 0 (by omega) ?_
  intro b hb
  apply h2 b
  have h9 : s.take 9 = (s.take 10).take 9 := by
    rw [List.take_take]
    norm_num
  rw [h9] at hb
  exact List.take_subset 9 (s.take 10) hb

theorem c8_vlq_overlong_witness :
    10 ≤ (List.replicate 10 128).length
    ∧ read_vtime (List.replicate 10 128)
        = (.error (.InvalidSMFFile "Variable length value too long"),
           (List.replicate 10 128).drop 9) :=
  ⟨by decide, c8_vlq_overlong (List.replicate 10 128) (by decide) (by decide)⟩

/-- C9: on an exhausted byte source the meta event decoder does not fail with
an io error: `read_byte` turns the zero-bytes-read case into the byte 0, so
`MetaEvent::next_event` on an empty source fabricates a SequenceNumber meta
event with length 0 from absent bytes; and when the declared payload length
exceeds the remaining bytes, `read_amount` records an error without breaking
out of its loop, so the call never returns (modelled `none`). -/
theorem c9_exhausted_source_fabricates :
    MetaEvent.next_event [] = some (.ok ⟨.SequenceNumber, 0, []⟩, [])
    ∧ read_byte [] = (0, [])
    ∧ MetaEvent.next_event [0x10, 3, 1] = none :=
  ⟨rfl, rfl, rfl⟩

set_option maxRecDepth 4000 in
theorem status_mask_isSome : ∀ b : Nat, b < 256 →
    ((Status.from_u8 (b &&& 0xF0)).isSome ↔ 128 ≤ b) := by
  decide

/-- C10: `MidiMessage::status` returns without panicking exactly when the data
buffer is nonempty and its first byte has the high bit set; and `channel`
panics exactly when `status` does (`none` models the panic). -/
theorem c10_status_panics (m : MidiMessage) (hbytes : ∀ b ∈ m.data, b < 256) :
    (m.statusOpt.isSome ↔ m.data ≠ [] ∧ 128 ≤ m.data.headD 0)
    ∧ (m.channelOpt.isSome ↔ m.statusOpt.isSome) := by
  constructor
  · cases hd : m.data with
    | nil => simp [MidiMessage.statusOpt, hd]
    | cons b tl =>
      have hb : b < 256 := hbytes b (by rw [hd]; exact List.mem_cons_self b tl)
      simp only [MidiMessage.statusOpt, hd, List.headD_cons]
      rw [status_mask_isSome b hb]
      simp
  · rw [MidiMessage.channelOpt]
    cases hs : m.statusOpt with
    | none => simp
    | some st => cases st <;> simp

theorem c10_status_panics_witness :
    (∀ b ∈ (MidiMessage.from_bytes [0x42]).data, b < 256)
    ∧ (((MidiMessage.from_bytes [0x42]).statusOpt.isSome
          ↔ (MidiMessage.from_bytes [0x42]).data ≠ []
            ∧ 128 ≤ (MidiMessage.from_bytes [0x42]).data.headD 0)
      ∧ ((MidiMessage.from_bytes [0x42]).channelOpt.isSome
          ↔ (MidiMessage.from_bytes [0x42]).statusOpt.isSome)) :=
  ⟨by decide, c10_status_panics (MidiMessage.from_bytes [0x42]) (by decide)⟩

end Rimd
